import Mathlib

/-!
# Verification of the bit-serial NHWC conv2d compute and schedule definition

A shallow embedding of `python/tvm/topi/arm_cpu/bitserial_conv2d_no_intrinsics.py`.
Tensors are modelled as total functions from natural-number indices to values;
`uint8`/`uint16` elements are naturals reduced mod `2^8`/`2^16` where the code
casts, and `int16` values are integers wrapped into `[-2^15, 2^15)`.  The
bit-packing collaborators (`bitpack`, `_kernel_vec_spatial_pack_nhwc`) are not
part of this repository's sources and are modelled from the specification.
-/

namespace BitserialConv

/-! ## 16-bit integer machinery -/

/-- Value of a `uint16` cast of a natural number. -/
def u16 (n : ℕ) : ℕ := n % 65536

/-- Population count of the low 16 bits, as computed by `popcount` on a
16-bit operand. -/
def popc16 (n : ℕ) : ℕ := ∑ j ∈ Finset.range 16, (n.testBit j).toNat

/-- Wrap an integer into the `int16` range `[-2^15, 2^15)` (two's complement). -/
def wrap16 (z : ℤ) : ℤ := (z + 32768) % 65536 - 32768

/-- Bit pattern (as a natural `< 2^16`) of the `int16` bitwise complement `~n`
of a 16-bit pattern `n`. -/
def i16not (n : ℕ) : ℕ := 65535 ^^^ (n % 65536)

/-- Reinterpretation of a `uint16` value as `int16` (the `astype("int16")`
narrowing applied by the output node to the bipolar accumulator). -/
def toI16 (v : ℕ) : ℤ := wrap16 (v : ℤ)

/-! ## Bit packing (modelled collaborators) -/

/-- Little-endian packing of a list of bits into a natural number. -/
def packBits : List Bool → ℕ
  | [] => 0
  | b :: L => b.toNat + 2 * packBits L

/-- Modelled from the spec: the bit-plane packer stores, for bit plane `b` and
packed storage unit `cp`, one byte whose bit `j` is bit `b` of the value at
channel `8*cp + j` (8 values per `uint8` storage unit). -/
def packByte (f : ℕ → ℕ) (b cp : ℕ) : ℕ :=
  packBits ((List.range 8).map fun j => (f (8 * cp + j)).testBit b)

/-! ## Problem parameters

Fields follow the names used by `bitserial_conv2d_nhwc_no_intrinsics`:
activation shape `(1, H, W, CI)`, unpacked kernel shape `(KH, KW, CI, CO)`,
strides `HSTR, WSTR`, explicit 4-tuple padding `TPAD, LPAD, DPAD, RPAD`,
and the two bit widths. -/
structure Params where
  H : ℕ
  W : ℕ
  CI : ℕ
  KH : ℕ
  KW : ℕ
  CO : ℕ
  HSTR : ℕ
  WSTR : ℕ
  TPAD : ℕ
  LPAD : ℕ
  DPAD : ℕ
  RPAD : ℕ
  AB : ℕ
  WB : ℕ

/-- `PAD_H = H + (TPAD + DPAD)`. -/
def padH (p : Params) : ℕ := p.H + (p.TPAD + p.DPAD)

/-- `PAD_W = W + (LPAD + RPAD)`. -/
def padW (p : Params) : ℕ := p.W + (p.LPAD + p.RPAD)

/-- `OH = (PAD_H - KH) // HSTR + 1`. -/
def outH (p : Params) : ℕ := (padH p - p.KH) / p.HSTR + 1

/-- `OW = (PAD_W - KW) // WSTR + 1`. -/
def outW (p : Params) : ℕ := (padW p - p.KW) / p.WSTR + 1

/-- `oshape = (1, OH, OW, CO)`. -/
def oshape (p : Params) : ℕ × ℕ × ℕ × ℕ := (1, outH p, outW p, p.CO)

/-- `CI_PAD`: the amount the source adds to the packed channel count when it
is not a multiple of 8 (`CI_PAD = CI_packed % 8` when nonzero, else `0`). -/
def ciPadOf (CIp : ℕ) : ℕ := if CIp % 8 ≠ 0 then CIp % 8 else 0

/-- The packed input-channel count after the source's padding step
(`CI_packed += CI_PAD`). -/
def paddedCIp (CIp : ℕ) : ℕ := CIp + ciPadOf CIp

/-! ## Padding strategy selection (the `data_pad` branch) -/

/-- The three mutually exclusive outcomes of the `data_pad` construction. -/
inductive PadStrategy where
  | spatialAndChannel : PadStrategy
  | channelOnly : PadStrategy
  | noPad : PadStrategy
deriving DecidableEq, Repr

/-- The branch at the `data_pad` construction site: combined spatial-and-channel
padding when `TPAD != 0 and RPAD != 0`, channel-only padding when `CI_PAD != 0`,
otherwise no padding node. -/
def padStrategy (tpad lpad dpad rpad cipad : ℕ) : PadStrategy :=
  if tpad ≠ 0 ∧ rpad ≠ 0 then .spatialAndChannel
  else if cipad ≠ 0 then .channelOnly
  else .noPad

/-! ## The data-side tensors -/

/-- Modelled from the spec: `bitpack(data, activation_bits, pack_axis=3,
bit_axis=3, pack_type="uint8")`, producing the 5-D bit-plane tensor
`data_q[n, h, w, b, cp]`. -/
def dataQ (A : ℕ → ℕ → ℕ → ℕ → ℕ) (n h w b cp : ℕ) : ℕ :=
  packByte (fun c => A n h w c) b cp

/-- Zero padding of the 5-D packed tensor by `(0, tp, lp, 0, 0)` before and
`(0, dp, rp, 0, cipad)` after: indices inside the copied region read the
original tensor, all others read zero. -/
def pad5 (T : ℕ → ℕ → ℕ → ℕ → ℕ → ℕ) (tp lp Hq Wq CIp : ℕ)
    (n h w b cp : ℕ) : ℕ :=
  if tp ≤ h ∧ h < tp + Hq ∧ lp ≤ w ∧ w < lp + Wq ∧ cp < CIp then
    T n (h - tp) (w - lp) b cp
  else 0

/-- `data_pad`: the result of the three-way padding branch applied to
`data_q`. -/
def dataPad (p : Params) (A : ℕ → ℕ → ℕ → ℕ → ℕ) (n h w b cp : ℕ) : ℕ :=
  match padStrategy p.TPAD p.LPAD p.DPAD p.RPAD (ciPadOf (p.CI / 8)) with
  | .spatialAndChannel => pad5 (dataQ A) p.TPAD p.LPAD p.H p.W (p.CI / 8) n h w b cp
  | .channelOnly => if cp < p.CI / 8 then dataQ A n h w b cp else 0
  | .noPad => dataQ A n h w b cp

/-- `data_vec[n, h, w, vh, vw, b, ci] =
data_pad[n][h*VH*HSTR + vh][w*VW*WSTR + vw][b][ci]`. -/
def dataVec (p : Params) (VH VW : ℕ) (A : ℕ → ℕ → ℕ → ℕ → ℕ)
    (n ho wo vh vw b ci : ℕ) : ℕ :=
  dataPad p A n (ho * VH * p.HSTR + vh) (wo * VW * p.WSTR + vw) b ci

/-! ## The kernel-side tensor -/

/-- Modelled from the spec: `_kernel_vec_spatial_pack_nhwc(kernel, weight_bits,
VC, True)` bit-packs the unpacked 4-D kernel along its input-channel axis and
blocks the output-channel axis into `(outer, inner)` chunks of width `VC`, so
that `kernel_vec[co, dh, dw, kb, vc, ci]` is the byte packing bit plane `kb` of
kernel values at output channel `co*VC + vc` and input channels `8*ci .. 8*ci+7`. -/
def kernelVecRaw (VC : ℕ) (Wt : ℕ → ℕ → ℕ → ℕ → ℕ)
    (coo dh dw kb vc ci : ℕ) : ℕ :=
  packByte (fun c => Wt dh dw c (coo * VC + vc)) kb ci

/-- `kernel_vec` after the conditional channel padding
`if idxm(kernel_vec.shape[-1], 8) != 0 and CI_PAD != 0: kernel_vec = pad(...)`. -/
def kernelVec (p : Params) (VC : ℕ) (Wt : ℕ → ℕ → ℕ → ℕ → ℕ)
    (coo dh dw kb vc ci : ℕ) : ℕ :=
  if (p.CI / 8) % 8 ≠ 0 ∧ ciPadOf (p.CI / 8) ≠ 0 then
    (if ci < p.CI / 8 then kernelVecRaw VC Wt coo dh dw kb vc ci else 0)
  else kernelVecRaw VC Wt coo dh dw kb vc ci

/-! ## The accumulation terms -/

/-- One bipolar reduction term:
`popcount(kernel_byte.astype(uint16) & data_byte.astype(uint16))
  << (kb + ib).astype(uint16)`, all in `uint16` arithmetic. -/
def bipolarTerm (k a s : ℕ) : ℕ :=
  (popc16 (u16 k &&& u16 a) * 2 ^ (u16 s)) % 65536

/-- One unipolar reduction term:
`(popcount(k.astype(int16) & a.astype(int16))
  - popcount(~k.astype(int16) & a)) << (kb + ib).astype(int16)`,
in `int16` arithmetic (the second AND's data operand is promoted to the
16-bit type by operand-type unification). -/
def unipolarTerm (k a s : ℕ) : ℤ :=
  wrap16 (wrap16 ((popc16 (u16 k &&& u16 a) : ℤ)
      - (popc16 (i16not k &&& u16 a) : ℤ)) * 2 ^ s)

/-! ## The accumulation tensors and the output node -/

/-- `conv_vec` in bipolar mode: the `uint16` reduction over
`dh, dw, kb, ib, ci` (the `uint16` accumulator reduces mod `2^16`). -/
def convVecBip (p : Params) (VH VW VC : ℕ) (A Wt : ℕ → ℕ → ℕ → ℕ → ℕ)
    (n ho wo coo vh vw vc : ℕ) : ℕ :=
  (∑ dh ∈ Finset.range p.KH, ∑ dw ∈ Finset.range p.KW,
    ∑ kb ∈ Finset.range p.WB, ∑ ib ∈ Finset.range p.AB,
      ∑ ci ∈ Finset.range (paddedCIp (p.CI / 8)),
        bipolarTerm (kernelVec p VC Wt coo dh dw kb vc ci)
          (dataVec p VH VW A n ho wo (vh * p.HSTR + dh) (vw * p.WSTR + dw) ib ci)
          (kb + ib)) % 65536

/-- `conv_vec` in unipolar mode: the `int16` reduction over
`dh, dw, kb, ib, ci` (the `int16` accumulator wraps into `[-2^15, 2^15)`). -/
def convVecUni (p : Params) (VH VW VC : ℕ) (A Wt : ℕ → ℕ → ℕ → ℕ → ℕ)
    (n ho wo coo vh vw vc : ℕ) : ℤ :=
  wrap16 (∑ dh ∈ Finset.range p.KH, ∑ dw ∈ Finset.range p.KW,
    ∑ kb ∈ Finset.range p.WB, ∑ ib ∈ Finset.range p.AB,
      ∑ ci ∈ Finset.range (paddedCIp (p.CI / 8)),
        unipolarTerm (kernelVec p VC Wt coo dh dw kb vc ci)
          (dataVec p VH VW A n ho wo (vh * p.HSTR + dh) (vw * p.WSTR + dw) ib ci)
          (kb + ib))

/-- The output node `conv` in bipolar mode:
`conv_vec[n, h//VH, w//VW, co//VC, h%VH, w%VW, co%VC].astype(out_dtype)`
with `out_dtype = "int16"`. -/
def convBip (p : Params) (VH VW VC : ℕ) (A Wt : ℕ → ℕ → ℕ → ℕ → ℕ)
    (n h w co : ℕ) : ℤ :=
  toI16 (convVecBip p VH VW VC A Wt n (h / VH) (w / VW) (co / VC)
    (h % VH) (w % VW) (co % VC))

/-- The output node `conv` in unipolar mode (the `astype("int16")` on an
`int16` accumulator is the identity). -/
def convUni (p : Params) (VH VW VC : ℕ) (A Wt : ℕ → ℕ → ℕ → ℕ → ℕ)
    (n h w co : ℕ) : ℤ :=
  convVecUni p VH VW VC A Wt n (h / VH) (w / VW) (co / VC)
    (h % VH) (w % VW) (co % VC)

/-! ## Entry point with its contract checks -/

/-- The compute graph produced by the entry point: the output tensor's shape
together with its element function. -/
structure ConvGraph where
  shape : ℕ × ℕ × ℕ × ℕ
  out : ℕ → ℕ → ℕ → ℕ → ℤ

/-- `bitserial_conv2d_nhwc_no_intrinsics` with an explicit 4-tuple padding:
the three `assert` statements run before any graph node is constructed; when
they pass, the compute graph is built. -/
def bitserialConv2dNHWC (batch : ℕ) (packDtype outDtype : String)
    (p : Params) (A Wt : ℕ → ℕ → ℕ → ℕ → ℕ) (unipolar : Bool)
    (VH VW VC : ℕ) : Except String ConvGraph :=
  if batch ≠ 1 then .error "spatial pack convolution only support batch size=1"
  else if packDtype ≠ "uint8" then .error "only support packing into uint8 bits"
  else if outDtype ≠ "int16" then .error "only support output type of int16"
  else .ok ⟨oshape p,
    if unipolar then convUni p VH VW VC A Wt else convBip p VH VW VC A Wt⟩

/-! ## Configuration space -/

/-- The candidates of a two-way `define_split` of an axis of the given extent:
all ordered factorizations `(outer, inner)` with `outer * inner = extent`
that the filter keeps. -/
def splitCandidates (extent : ℕ) (keep : ℕ → Bool) : Finset (ℕ × ℕ) :=
  (Finset.range (extent + 1) ×ˢ Finset.range (extent + 1)).filter
    fun oi => oi.1 * oi.2 = extent ∧ keep oi.2 = true

/-- `tile_co` candidates: `filter=lambda x: x.size[-1] == 8`. -/
def tileCo (co : ℕ) : Finset (ℕ × ℕ) := splitCandidates co (fun i => i == 8)

/-- `tile_oh` candidates: `filter=lambda x: x.size[-1] >= 2`. -/
def tileOh (oh : ℕ) : Finset (ℕ × ℕ) := splitCandidates oh (fun i => 2 ≤ i)

/-- `tile_ow` candidates: `filter=lambda x: x.size[-1] >= 2`. -/
def tileOw (ow : ℕ) : Finset (ℕ × ℕ) := splitCandidates ow (fun i => 2 ≤ i)

/-- `tile_ci` candidates: `filter=lambda x: x.size[-1] == 8 or x.size[-1] == 16`. -/
def tileCi (ci : ℕ) : Finset (ℕ × ℕ) := splitCandidates ci (fun i => i == 8 || i == 16)

/-- The logical loop variables appearing in the `reorder_0` candidate lists. -/
inductive Axis where
  | n | oh | ow | co | vh | vw | kh | kw | ciO | kb | ib | vc | ciI
deriving DecidableEq, Repr

/-- The `reorder_0` knob: `policy="candidate"` with exactly the two listed
permutations of `[n, oh, ow, co, vh, vw, kh, kw, ci_o, kb, ib, vc, ci_i]`. -/
def reorderCandidates : List (List Axis) :=
  [[.n, .oh, .ow, .co, .vh, .vw, .kh, .kw, .ciO, .kb, .ib, .vc, .ciI],
   [.n, .oh, .ow, .co, .vh, .vw, .kw, .kh, .ciO, .kb, .ib, .vc, .ciI]]

/-! ## Reference semantics (from the spec's testable properties) -/

/-- The zero-padded unpacked activation: spatial zero padding by
`(TPAD, LPAD)` before and `(DPAD, RPAD)` after. -/
def aPad (p : Params) (A : ℕ → ℕ → ℕ → ℕ → ℕ) (n h w c : ℕ) : ℕ :=
  if p.TPAD ≤ h ∧ h < p.TPAD + p.H ∧ p.LPAD ≤ w ∧ w < p.LPAD + p.W then
    A n (h - p.TPAD) (w - p.LPAD) c
  else 0

/-- The standard integer dot-product convolution of the unpacked values
(bipolar reference). -/
def refBip (p : Params) (A Wt : ℕ → ℕ → ℕ → ℕ → ℕ) (n h w co : ℕ) : ℕ :=
  ∑ dh ∈ Finset.range p.KH, ∑ dw ∈ Finset.range p.KW,
    ∑ c ∈ Finset.range p.CI,
      aPad p A n (h * p.HSTR + dh) (w * p.WSTR + dw) c * Wt dh dw c co

/-- The signed weight value of unipolar mode: each weight bit contributes
`+2^kb` when set and `-2^kb` when clear (`1 -> +1`, `0 -> -1` per bit plane). -/
def uniW (WB w : ℕ) : ℤ :=
  ∑ kb ∈ Finset.range WB, (if w.testBit kb then (1 : ℤ) else -1) * 2 ^ kb

/-- The signed reference dot-product convolution (unipolar reference). -/
def refUni (p : Params) (A Wt : ℕ → ℕ → ℕ → ℕ → ℕ) (n h w co : ℕ) : ℤ :=
  ∑ dh ∈ Finset.range p.KH, ∑ dw ∈ Finset.range p.KW,
    ∑ c ∈ Finset.range p.CI,
      (aPad p A n (h * p.HSTR + dh) (w * p.WSTR + dw) c : ℤ) * uniW p.WB (Wt dh dw c co)

/-! ## Lemmas: bit packing -/

lemma packBits_lt (L : List Bool) : packBits L < 2 ^ L.length := by
  induction L with
  | nil => simp [packBits]
  | cons b L ih =>
    simp only [packBits, List.length_cons, pow_succ]
    cases b <;> simp [Bool.toNat] <;> omega

lemma testBit_packBits (L : List Bool) : ∀ j, (packBits L).testBit j = L.getD j false := by
  induction L with
  | nil => intro j; simp [packBits]
  | cons b L ih =>
    intro j
    cases j with
    | zero =>
      rw [packBits, Nat.testBit_zero]
      cases b <;> simp [Bool.toNat, Nat.add_mul_mod_self_left]
    | succ j =>
      rw [packBits, Nat.testBit_succ]
      have hdiv : (b.toNat + 2 * packBits L) / 2 = packBits L := by
        cases b <;> simp [Bool.toNat] <;> omega
      rw [hdiv, ih]
      rfl

lemma testBit_packByte (f : ℕ → ℕ) (b cp j : ℕ) :
    (packByte f b cp).testBit j =
      if j < 8 then (f (8 * cp + j)).testBit b else false := by
  rw [packByte, testBit_packBits]
  by_cases h : j < 8
  · simp only [h, if_true]
    interval_cases j <;> rfl
  · rw [List.getD_eq_default, if_neg h]
    simp only [List.length_map, List.length_range]
    omega

lemma packByte_lt (f : ℕ → ℕ) (b cp : ℕ) : packByte f b cp < 256 := by
  have h := packBits_lt ((List.range 8).map fun j => (f (8 * cp + j)).testBit b)
  simpa [packByte] using h

/-! ## Lemmas: popcount -/

lemma popc16_and (x y : ℕ) :
    popc16 (x &&& y) = ∑ j ∈ Finset.range 16, (x.testBit j).toNat * (y.testBit j).toNat := by
  unfold popc16
  refine Finset.sum_congr rfl fun j _ => ?_
  rw [Nat.testBit_and]
  cases x.testBit j <;> cases y.testBit j <;> rfl

lemma popc16_zero : popc16 0 = 0 := by decide

lemma popc16_le_eight (x : ℕ) (hx : x < 256) : popc16 x ≤ 8 := by
  unfold popc16
  have h : ∀ j ∈ Finset.range 16, (x.testBit j).toNat ≤ if j < 8 then 1 else 0 := by
    intro j hj
    by_cases hj8 : j < 8
    · simp only [hj8, if_true]; cases x.testBit j <;> simp
    · have : x.testBit j = false := by
        refine Nat.testBit_lt_two_pow (lt_of_lt_of_le hx ?_)
        calc (256 : ℕ) = 2 ^ 8 := by norm_num
        _ ≤ 2 ^ j := Nat.pow_le_pow_right (by norm_num) (by omega)
      simp [this]
  calc ∑ j ∈ Finset.range 16, (x.testBit j).toNat
      ≤ ∑ j ∈ Finset.range 16, if j < 8 then 1 else 0 := Finset.sum_le_sum h
    _ = 8 := by decide

/-! ## Lemmas: binary expansion -/

lemma sum_testBit_mul_pow : ∀ (B v : ℕ), v < 2 ^ B →
    ∑ b ∈ Finset.range B, (v.testBit b).toNat * 2 ^ b = v := by
  intro B
  induction B with
  | zero => intro v hv; interval_cases v; simp
  | succ B ih =>
    intro v hv
    rw [Finset.sum_range_succ']
    have hdiv : v / 2 < 2 ^ B := by
      rw [pow_succ] at hv
      omega
    have hrec := ih (v / 2) hdiv
    have hstep : ∀ b, (v.testBit (b + 1)).toNat * 2 ^ (b + 1) =
        2 * (((v / 2).testBit b).toNat * 2 ^ b) := by
      intro b
      rw [Nat.testBit_succ, pow_succ]
      ring
    calc (∑ b ∈ Finset.range B, (v.testBit (b + 1)).toNat * 2 ^ (b + 1))
          + (v.testBit 0).toNat * 2 ^ 0
        = (∑ b ∈ Finset.range B, 2 * (((v / 2).testBit b).toNat * 2 ^ b))
          + (v.testBit 0).toNat * 2 ^ 0 := by
          rw [Finset.sum_congr rfl fun b _ => hstep b]
      _ = 2 * (v / 2) + (v.testBit 0).toNat := by
          rw [← Finset.mul_sum, hrec]; simp
      _ = v := by
          rw [Nat.testBit_zero]
          rcases Nat.mod_two_eq_zero_or_one v with h | h <;> simp [h] <;> omega

/-! ## Lemmas: splitting a channel range into bytes -/

lemma sum_range_eight_mul {β : Type} [AddCommMonoid β] (M : ℕ) (f : ℕ → β) :
    ∑ c ∈ Finset.range (8 * M), f c =
      ∑ cp ∈ Finset.range M, ∑ j ∈ Finset.range 8, f (8 * cp + j) := by
  induction M with
  | zero => simp
  | succ M ih =>
    have h8 : 8 * (M + 1) = 8 * M + 8 := by ring
    rw [h8, Finset.sum_range_add, ih,
      Finset.sum_range_succ (fun cp => ∑ j ∈ Finset.range 8, f (8 * cp + j)) M]

/-! ## Lemmas: 16-bit wrapping -/

lemma wrap16_emod (z : ℤ) : wrap16 z % 65536 = z % 65536 := by
  unfold wrap16
  omega

lemma wrap16_eq_self (z : ℤ) (h1 : -32768 ≤ z) (h2 : z < 32768) : wrap16 z = z := by
  unfold wrap16
  omega

lemma wrap16_congr (a b : ℤ) (h : a % 65536 = b % 65536) : wrap16 a = wrap16 b := by
  unfold wrap16
  omega

lemma toI16_eq_self (v : ℕ) (h : v < 32768) : toI16 v = v := by
  unfold toI16
  exact wrap16_eq_self _ (by omega) (by exact_mod_cast h)

/-! ## Lemmas: pushing mods through sums -/

lemma sum_mod_congr {α : Type} (s : Finset α) (f g : α → ℕ) (M : ℕ)
    (h : ∀ x ∈ s, f x % M = g x % M) :
    (∑ x ∈ s, f x) % M = (∑ x ∈ s, g x) % M := by
  rw [Finset.sum_nat_mod s M f, Finset.sum_nat_mod s M g, Finset.sum_congr rfl h]

lemma sum_int_mod_congr {α : Type} (s : Finset α) (f g : α → ℤ) (M : ℤ)
    (h : ∀ x ∈ s, f x % M = g x % M) :
    (∑ x ∈ s, f x) % M = (∑ x ∈ s, g x) % M := by
  rw [Finset.sum_int_mod s M f, Finset.sum_int_mod s M g, Finset.sum_congr rfl h]

/-! ## Lemmas: popcount over bytes -/

lemma packBits_eq_zero (L : List Bool) (h : ∀ b ∈ L, b = false) : packBits L = 0 := by
  induction L with
  | nil => rfl
  | cons b L ih =>
    have hb : b = false := h b (by simp)
    have hL : packBits L = 0 := ih fun x hx => h x (by simp [hx])
    simp [packBits, hb, hL]

lemma packByte_zero (f : ℕ → ℕ) (b cp : ℕ) (h : ∀ c, f c = 0) :
    packByte f b cp = 0 := by
  refine packBits_eq_zero _ fun x hx => ?_
  simp only [List.mem_map, List.mem_range] at hx
  obtain ⟨j, _, hj⟩ := hx
  rw [← hj, h]
  exact Nat.zero_testBit b

/-- Popcount of an AND where the right operand is a byte: only the low 8 bit
positions contribute. -/
lemma popc16_and_byte (x y : ℕ) (hy : y < 256) :
    popc16 (x &&& y) = ∑ j ∈ Finset.range 8, (x.testBit j).toNat * (y.testBit j).toNat := by
  rw [popc16_and]
  refine (Finset.sum_subset (Finset.range_subset.mpr (by norm_num)) ?_).symm
  intro j _ hj8
  have : y.testBit j = false := by
    refine Nat.testBit_lt_two_pow (lt_of_lt_of_le hy ?_)
    calc (256 : ℕ) = 2 ^ 8 := by norm_num
    _ ≤ 2 ^ j := Nat.pow_le_pow_right (by norm_num) (by simp at hj8; omega)
  simp [this]

lemma testBit_i16not (k j : ℕ) (hk : k < 65536) (hj : j < 16) :
    (i16not k).testBit j = !(k.testBit j) := by
  unfold i16not
  rw [Nat.mod_eq_of_lt hk, Nat.testBit_xor]
  have h65535 : (65535 : ℕ).testBit j = true := by
    have : (65535 : ℕ) = 2 ^ 16 - 1 := by norm_num
    rw [this, Nat.testBit_two_pow_sub_one]
    simpa using hj
  rw [h65535]
  cases k.testBit j <;> rfl

/-- The unipolar popcount difference over one byte pair, as a signed sum over
the byte's bit positions. -/
lemma popc16_diff_byte (wb ab : ℕ) (hwb : wb < 256) (hab : ab < 256) :
    (popc16 (wb &&& ab) : ℤ) - (popc16 (i16not wb &&& ab) : ℤ) =
      ∑ j ∈ Finset.range 8,
        (2 * ((wb.testBit j).toNat : ℤ) - 1) * ((ab.testBit j).toNat : ℤ) := by
  rw [popc16_and_byte wb ab hab, popc16_and_byte (i16not wb) ab hab]
  push_cast
  rw [← Finset.sum_sub_distrib]
  refine Finset.sum_congr rfl fun j hj => ?_
  have hj16 : j < 16 := by simp at hj; omega
  rw [testBit_i16not wb j (by omega) hj16]
  cases wb.testBit j <;> cases ab.testBit j <;> simp

/-! ## Lemmas: single-value dot products from bit planes -/

lemma dot_single_bip (wv av WB AB : ℕ) (hw : wv < 2 ^ WB) (ha : av < 2 ^ AB) :
    ∑ kb ∈ Finset.range WB, ∑ ib ∈ Finset.range AB,
      (wv.testBit kb).toNat * (av.testBit ib).toNat * 2 ^ (kb + ib) = wv * av := by
  have hterm : ∀ kb ib : ℕ,
      (wv.testBit kb).toNat * (av.testBit ib).toNat * 2 ^ (kb + ib) =
        ((wv.testBit kb).toNat * 2 ^ kb) * ((av.testBit ib).toNat * 2 ^ ib) := by
    intro kb ib
    rw [pow_add]
    ring
  calc ∑ kb ∈ Finset.range WB, ∑ ib ∈ Finset.range AB,
        (wv.testBit kb).toNat * (av.testBit ib).toNat * 2 ^ (kb + ib)
      = ∑ kb ∈ Finset.range WB, ∑ ib ∈ Finset.range AB,
        ((wv.testBit kb).toNat * 2 ^ kb) * ((av.testBit ib).toNat * 2 ^ ib) := by
        exact Finset.sum_congr rfl fun kb _ => Finset.sum_congr rfl fun ib _ => hterm kb ib
    _ = (∑ kb ∈ Finset.range WB, (wv.testBit kb).toNat * 2 ^ kb)
        * (∑ ib ∈ Finset.range AB, (av.testBit ib).toNat * 2 ^ ib) :=
        (Finset.sum_mul_sum _ _ _ _).symm
    _ = wv * av := by rw [sum_testBit_mul_pow WB wv hw, sum_testBit_mul_pow AB av ha]

lemma sum_testBit_mul_pow_int (B v : ℕ) (hv : v < 2 ^ B) :
    ∑ b ∈ Finset.range B, ((v.testBit b).toNat : ℤ) * 2 ^ b = (v : ℤ) := by
  have h := sum_testBit_mul_pow B v hv
  exact_mod_cast congrArg (Nat.cast : ℕ → ℤ) h

lemma dot_single_uni (wv av WB AB : ℕ) (ha : av < 2 ^ AB) :
    ∑ kb ∈ Finset.range WB, ∑ ib ∈ Finset.range AB,
      (2 * ((wv.testBit kb).toNat : ℤ) - 1) * ((av.testBit ib).toNat : ℤ) * 2 ^ (kb + ib) =
      uniW WB wv * av := by
  have hterm : ∀ kb ib : ℕ,
      (2 * ((wv.testBit kb).toNat : ℤ) - 1) * ((av.testBit ib).toNat : ℤ) * 2 ^ (kb + ib) =
        ((2 * ((wv.testBit kb).toNat : ℤ) - 1) * 2 ^ kb) * (((av.testBit ib).toNat : ℤ) * 2 ^ ib) := by
    intro kb ib
    rw [pow_add]
    ring
  calc ∑ kb ∈ Finset.range WB, ∑ ib ∈ Finset.range AB,
        (2 * ((wv.testBit kb).toNat : ℤ) - 1) * ((av.testBit ib).toNat : ℤ) * 2 ^ (kb + ib)
      = ∑ kb ∈ Finset.range WB, ∑ ib ∈ Finset.range AB,
        ((2 * ((wv.testBit kb).toNat : ℤ) - 1) * 2 ^ kb) * (((av.testBit ib).toNat : ℤ) * 2 ^ ib) := by
        exact Finset.sum_congr rfl fun kb _ => Finset.sum_congr rfl fun ib _ => hterm kb ib
    _ = (∑ kb ∈ Finset.range WB, (2 * ((wv.testBit kb).toNat : ℤ) - 1) * 2 ^ kb)
        * (∑ ib ∈ Finset.range AB, ((av.testBit ib).toNat : ℤ) * 2 ^ ib) :=
        (Finset.sum_mul_sum _ _ _ _).symm
    _ = uniW WB wv * av := by
        rw [sum_testBit_mul_pow_int AB av ha]
        congr 1
        unfold uniW
        refine Finset.sum_congr rfl fun kb _ => ?_
        congr 1
        cases wv.testBit kb <;> simp

/-! ## Lemmas: rearranging nested reductions -/

lemma sum4_swap {β : Type} [AddCommMonoid β] (n1 n2 n3 n4 : ℕ) (f : ℕ → ℕ → ℕ → ℕ → β) :
    ∑ a ∈ Finset.range n1, ∑ b ∈ Finset.range n2, ∑ c ∈ Finset.range n3,
      ∑ d ∈ Finset.range n4, f a b c d
    = ∑ c ∈ Finset.range n3, ∑ d ∈ Finset.range n4, ∑ a ∈ Finset.range n1,
      ∑ b ∈ Finset.range n2, f a b c d := by
  calc ∑ a ∈ Finset.range n1, ∑ b ∈ Finset.range n2, ∑ c ∈ Finset.range n3,
        ∑ d ∈ Finset.range n4, f a b c d
      = ∑ a ∈ Finset.range n1, ∑ c ∈ Finset.range n3, ∑ b ∈ Finset.range n2,
        ∑ d ∈ Finset.range n4, f a b c d :=
        Finset.sum_congr rfl fun a _ => Finset.sum_comm
    _ = ∑ c ∈ Finset.range n3, ∑ a ∈ Finset.range n1, ∑ b ∈ Finset.range n2,
        ∑ d ∈ Finset.range n4, f a b c d := Finset.sum_comm
    _ = ∑ c ∈ Finset.range n3, ∑ a ∈ Finset.range n1, ∑ d ∈ Finset.range n4,
        ∑ b ∈ Finset.range n2, f a b c d :=
        Finset.sum_congr rfl fun c _ => Finset.sum_congr rfl fun a _ => Finset.sum_comm
    _ = ∑ c ∈ Finset.range n3, ∑ d ∈ Finset.range n4, ∑ a ∈ Finset.range n1,
        ∑ b ∈ Finset.range n2, f a b c d :=
        Finset.sum_congr rfl fun c _ => Finset.sum_comm

/-! ## The per-position dot-product reconstruction -/

/-- Bipolar reconstruction: summing `popcount(w_byte AND a_byte) << (kb + ib)`
over both bit axes and the (possibly channel-padded) packed-channel axis
recovers the plain integer dot product of the unpacked values. -/
lemma conv_sum_bip (Wv Av : ℕ → ℕ) (WB AB M P : ℕ) (hMP : M ≤ P)
    (hW : ∀ c, Wv c < 2 ^ WB) (hA : ∀ c, Av c < 2 ^ AB) :
    ∑ kb ∈ Finset.range WB, ∑ ib ∈ Finset.range AB, ∑ cp ∈ Finset.range P,
      popc16 ((if cp < M then packByte Wv kb cp else 0) &&&
        (if cp < M then packByte Av ib cp else 0)) * 2 ^ (kb + ib)
    = ∑ c ∈ Finset.range (8 * M), Wv c * Av c := by
  have hrestrict : ∀ kb ib : ℕ,
      (∑ cp ∈ Finset.range P,
        popc16 ((if cp < M then packByte Wv kb cp else 0) &&&
          (if cp < M then packByte Av ib cp else 0)) * 2 ^ (kb + ib))
      = ∑ cp ∈ Finset.range M,
        popc16 (packByte Wv kb cp &&& packByte Av ib cp) * 2 ^ (kb + ib) := by
    intro kb ib
    rw [← Finset.sum_subset (Finset.range_subset.mpr hMP)]
    · refine Finset.sum_congr rfl fun cp hcp => ?_
      have h : cp < M := Finset.mem_range.mp hcp
      simp [h]
    · intro cp _ hcp
      have h : ¬ cp < M := by simpa using hcp
      simp [h, popc16_zero]
  have hbyte : ∀ kb ib cp : ℕ,
      popc16 (packByte Wv kb cp &&& packByte Av ib cp) =
        ∑ j ∈ Finset.range 8,
          ((Wv (8 * cp + j)).testBit kb).toNat * ((Av (8 * cp + j)).testBit ib).toNat := by
    intro kb ib cp
    rw [popc16_and_byte _ _ (packByte_lt Av ib cp)]
    refine Finset.sum_congr rfl fun j hj => ?_
    have hj8 : j < 8 := Finset.mem_range.mp hj
    rw [testBit_packByte, testBit_packByte, if_pos hj8, if_pos hj8]
  calc ∑ kb ∈ Finset.range WB, ∑ ib ∈ Finset.range AB, ∑ cp ∈ Finset.range P,
        popc16 ((if cp < M then packByte Wv kb cp else 0) &&&
          (if cp < M then packByte Av ib cp else 0)) * 2 ^ (kb + ib)
      = ∑ kb ∈ Finset.range WB, ∑ ib ∈ Finset.range AB, ∑ cp ∈ Finset.range M,
        ∑ j ∈ Finset.range 8,
          ((Wv (8 * cp + j)).testBit kb).toNat * ((Av (8 * cp + j)).testBit ib).toNat
            * 2 ^ (kb + ib) := by
        refine Finset.sum_congr rfl fun kb _ => Finset.sum_congr rfl fun ib _ => ?_
        rw [hrestrict kb ib]
        refine Finset.sum_congr rfl fun cp _ => ?_
        rw [hbyte kb ib cp, Finset.sum_mul]
    _ = ∑ cp ∈ Finset.range M, ∑ j ∈ Finset.range 8, ∑ kb ∈ Finset.range WB,
        ∑ ib ∈ Finset.range AB,
          ((Wv (8 * cp + j)).testBit kb).toNat * ((Av (8 * cp + j)).testBit ib).toNat
            * 2 ^ (kb + ib) :=
        sum4_swap WB AB M 8 (fun kb ib cp j =>
          ((Wv (8 * cp + j)).testBit kb).toNat * ((Av (8 * cp + j)).testBit ib).toNat
            * 2 ^ (kb + ib))
    _ = ∑ cp ∈ Finset.range M, ∑ j ∈ Finset.range 8, Wv (8 * cp + j) * Av (8 * cp + j) :=
        Finset.sum_congr rfl fun cp _ => Finset.sum_congr rfl fun j _ =>
          dot_single_bip _ _ WB AB (hW _) (hA _)
    _ = ∑ c ∈ Finset.range (8 * M), Wv c * Av c :=
        (sum_range_eight_mul M (fun c => Wv c * Av c)).symm

/-- Unipolar reconstruction: summing
`(popcount(w AND a) - popcount(NOT w AND a)) << (kb + ib)` recovers the
signed dot product with the per-bit `{+1, -1}` weight mapping. -/
lemma conv_sum_uni (Wv Av : ℕ → ℕ) (WB AB M P : ℕ) (hMP : M ≤ P)
    (hA : ∀ c, Av c < 2 ^ AB) :
    ∑ kb ∈ Finset.range WB, ∑ ib ∈ Finset.range AB, ∑ cp ∈ Finset.range P,
      ((popc16 ((if cp < M then packByte Wv kb cp else 0) &&&
          (if cp < M then packByte Av ib cp else 0)) : ℤ)
        - (popc16 (i16not (if cp < M then packByte Wv kb cp else 0) &&&
          (if cp < M then packByte Av ib cp else 0)) : ℤ)) * 2 ^ (kb + ib)
    = ∑ c ∈ Finset.range (8 * M), uniW WB (Wv c) * (Av c : ℤ) := by
  have hrestrict : ∀ kb ib : ℕ,
      (∑ cp ∈ Finset.range P,
        ((popc16 ((if cp < M then packByte Wv kb cp else 0) &&&
            (if cp < M then packByte Av ib cp else 0)) : ℤ)
          - (popc16 (i16not (if cp < M then packByte Wv kb cp else 0) &&&
            (if cp < M then packByte Av ib cp else 0)) : ℤ)) * 2 ^ (kb + ib))
      = ∑ cp ∈ Finset.range M,
        ((popc16 (packByte Wv kb cp &&& packByte Av ib cp) : ℤ)
          - (popc16 (i16not (packByte Wv kb cp) &&& packByte Av ib cp) : ℤ))
            * 2 ^ (kb + ib) := by
    intro kb ib
    rw [← Finset.sum_subset (Finset.range_subset.mpr hMP)]
    · refine Finset.sum_congr rfl fun cp hcp => ?_
      have h : cp < M := Finset.mem_range.mp hcp
      simp [h]
    · intro cp _ hcp
      have h : ¬ cp < M := by simpa using hcp
      simp [h, popc16_zero]
  have hbyte : ∀ kb ib cp : ℕ,
      (popc16 (packByte Wv kb cp &&& packByte Av ib cp) : ℤ)
        - (popc16 (i16not (packByte Wv kb cp) &&& packByte Av ib cp) : ℤ) =
      ∑ j ∈ Finset.range 8,
        (2 * (((Wv (8 * cp + j)).testBit kb).toNat : ℤ) - 1)
          * (((Av (8 * cp + j)).testBit ib).toNat : ℤ) := by
    intro kb ib cp
    rw [popc16_diff_byte _ _ (packByte_lt Wv kb cp) (packByte_lt Av ib cp)]
    refine Finset.sum_congr rfl fun j hj => ?_
    have hj8 : j < 8 := Finset.mem_range.mp hj
    rw [testBit_packByte, testBit_packByte, if_pos hj8, if_pos hj8]
  calc ∑ kb ∈ Finset.range WB, ∑ ib ∈ Finset.range AB, ∑ cp ∈ Finset.range P,
        ((popc16 ((if cp < M then packByte Wv kb cp else 0) &&&
            (if cp < M then packByte Av ib cp else 0)) : ℤ)
          - (popc16 (i16not (if cp < M then packByte Wv kb cp else 0) &&&
            (if cp < M then packByte Av ib cp else 0)) : ℤ)) * 2 ^ (kb + ib)
      = ∑ kb ∈ Finset.range WB, ∑ ib ∈ Finset.range AB, ∑ cp ∈ Finset.range M,
        ∑ j ∈ Finset.range 8,
          (2 * (((Wv (8 * cp + j)).testBit kb).toNat : ℤ) - 1)
            * (((Av (8 * cp + j)).testBit ib).toNat : ℤ) * 2 ^ (kb + ib) := by
        refine Finset.sum_congr rfl fun kb _ => Finset.sum_congr rfl fun ib _ => ?_
        rw [hrestrict kb ib]
        refine Finset.sum_congr rfl fun cp _ => ?_
        rw [hbyte kb ib cp, Finset.sum_mul]
    _ = ∑ cp ∈ Finset.range M, ∑ j ∈ Finset.range 8, ∑ kb ∈ Finset.range WB,
        ∑ ib ∈ Finset.range AB,
          (2 * (((Wv (8 * cp + j)).testBit kb).toNat : ℤ) - 1)
            * (((Av (8 * cp + j)).testBit ib).toNat : ℤ) * 2 ^ (kb + ib) :=
        sum4_swap WB AB M 8 (fun kb ib cp j =>
          (2 * (((Wv (8 * cp + j)).testBit kb).toNat : ℤ) - 1)
            * (((Av (8 * cp + j)).testBit ib).toNat : ℤ) * 2 ^ (kb + ib))
    _ = ∑ cp ∈ Finset.range M, ∑ j ∈ Finset.range 8,
        uniW WB (Wv (8 * cp + j)) * (Av (8 * cp + j) : ℤ) :=
        Finset.sum_congr rfl fun cp _ => Finset.sum_congr rfl fun j _ =>
          dot_single_uni _ _ WB AB (hA _)
    _ = ∑ c ∈ Finset.range (8 * M), uniW WB (Wv c) * (Av c : ℤ) :=
        (sum_range_eight_mul M (fun c => uniW WB (Wv c) * (Av c : ℤ))).symm

/-! ## Flattening the tiled indexing

The output node re-indexes the tiled accumulator through `(outer, inner)`
coordinates.  Recombining `outer * tile + inner` recovers the flat index, so
the composed function is independent of the tile widths. -/

lemma tile_flatten (h VH s d : ℕ) :
    h / VH * VH * s + (h % VH * s + d) = h * s + d := by
  have hdm : VH * (h / VH) + h % VH = h := Nat.div_add_mod h VH
  calc h / VH * VH * s + (h % VH * s + d)
      = (VH * (h / VH) + h % VH) * s + d := by ring
    _ = h * s + d := by rw [hdm]

/-- The packed kernel byte at a flat output channel index. -/
def kernelVecAt (p : Params) (Wt : ℕ → ℕ → ℕ → ℕ → ℕ) (co dh dw kb ci : ℕ) : ℕ :=
  if (p.CI / 8) % 8 ≠ 0 ∧ ciPadOf (p.CI / 8) ≠ 0 then
    (if ci < p.CI / 8 then packByte (fun c => Wt dh dw c co) kb ci else 0)
  else packByte (fun c => Wt dh dw c co) kb ci

lemma kernelVec_at (p : Params) (VC : ℕ) (Wt : ℕ → ℕ → ℕ → ℕ → ℕ)
    (co dh dw kb ci : ℕ) :
    kernelVec p VC Wt (co / VC) dh dw kb (co % VC) ci = kernelVecAt p Wt co dh dw kb ci := by
  have hco : co / VC * VC + co % VC = co := by
    rw [Nat.mul_comm]
    exact Nat.div_add_mod co VC
  unfold kernelVec kernelVecAt kernelVecRaw
  rw [hco]

/-- The bipolar output element written with flat (untiled) indices. -/
def convFlatBip (p : Params) (A Wt : ℕ → ℕ → ℕ → ℕ → ℕ) (n h w co : ℕ) : ℕ :=
  (∑ dh ∈ Finset.range p.KH, ∑ dw ∈ Finset.range p.KW,
    ∑ kb ∈ Finset.range p.WB, ∑ ib ∈ Finset.range p.AB,
      ∑ ci ∈ Finset.range (paddedCIp (p.CI / 8)),
        bipolarTerm (kernelVecAt p Wt co dh dw kb ci)
          (dataPad p A n (h * p.HSTR + dh) (w * p.WSTR + dw) ib ci)
          (kb + ib)) % 65536

/-- The unipolar output element written with flat (untiled) indices. -/
def convFlatUni (p : Params) (A Wt : ℕ → ℕ → ℕ → ℕ → ℕ) (n h w co : ℕ) : ℤ :=
  wrap16 (∑ dh ∈ Finset.range p.KH, ∑ dw ∈ Finset.range p.KW,
    ∑ kb ∈ Finset.range p.WB, ∑ ib ∈ Finset.range p.AB,
      ∑ ci ∈ Finset.range (paddedCIp (p.CI / 8)),
        unipolarTerm (kernelVecAt p Wt co dh dw kb ci)
          (dataPad p A n (h * p.HSTR + dh) (w * p.WSTR + dw) ib ci)
          (kb + ib))

lemma convBip_eq_flat (p : Params) (VH VW VC : ℕ) (A Wt : ℕ → ℕ → ℕ → ℕ → ℕ)
    (n h w co : ℕ) :
    convBip p VH VW VC A Wt n h w co = toI16 (convFlatBip p A Wt n h w co) := by
  simp only [convBip, convVecBip, convFlatBip]
  refine congrArg toI16 ?_
  refine congrArg (fun t => t % 65536) ?_
  refine Finset.sum_congr rfl fun dh _ => Finset.sum_congr rfl fun dw _ => ?_
  refine Finset.sum_congr rfl fun kb _ => Finset.sum_congr rfl fun ib _ => ?_
  refine Finset.sum_congr rfl fun ci _ => ?_
  rw [kernelVec_at]
  simp only [dataVec]
  rw [tile_flatten h VH p.HSTR dh, tile_flatten w VW p.WSTR dw]

lemma convUni_eq_flat (p : Params) (VH VW VC : ℕ) (A Wt : ℕ → ℕ → ℕ → ℕ → ℕ)
    (n h w co : ℕ) :
    convUni p VH VW VC A Wt n h w co = convFlatUni p A Wt n h w co := by
  simp only [convUni, convVecUni, convFlatUni]
  refine congrArg wrap16 ?_
  refine Finset.sum_congr rfl fun dh _ => Finset.sum_congr rfl fun dw _ => ?_
  refine Finset.sum_congr rfl fun kb _ => Finset.sum_congr rfl fun ib _ => ?_
  refine Finset.sum_congr rfl fun ci _ => ?_
  rw [kernelVec_at]
  simp only [dataVec]
  rw [tile_flatten h VH p.HSTR dh, tile_flatten w VW p.WSTR dw]

/-! ## Matching the embedded tensors against packed reference bytes -/

lemma packByte_congr (f g : ℕ → ℕ) (b cp : ℕ) (h : ∀ c, f c = g c) :
    packByte f b cp = packByte g b cp := by
  have hfg : f = g := funext h
  rw [hfg]

lemma kernelVecAt_lt (p : Params) (Wt : ℕ → ℕ → ℕ → ℕ → ℕ) (co dh dw kb ci : ℕ) :
    kernelVecAt p Wt co dh dw kb ci < 256 := by
  unfold kernelVecAt
  split
  · split
    · exact packByte_lt _ _ _
    · norm_num
  · exact packByte_lt _ _ _

lemma dataPad_lt (p : Params) (A : ℕ → ℕ → ℕ → ℕ → ℕ) (n h w b cp : ℕ) :
    dataPad p A n h w b cp < 256 := by
  unfold dataPad
  split
  · unfold pad5
    split
    · exact packByte_lt _ _ _
    · norm_num
  · split
    · exact packByte_lt _ _ _
    · norm_num
  · exact packByte_lt _ _ _

/-- On the reduction domain, the (possibly padded) kernel byte coincides with
the channel-guarded packing of the kernel values at the flat output channel. -/
lemma kernelVecAt_eq (p : Params) (Wt : ℕ → ℕ → ℕ → ℕ → ℕ) (co dh dw kb ci : ℕ)
    (hci : ci < paddedCIp (p.CI / 8)) :
    kernelVecAt p Wt co dh dw kb ci =
      if ci < p.CI / 8 then packByte (fun c => Wt dh dw c co) kb ci else 0 := by
  unfold kernelVecAt
  split
  · rfl
  · rename_i hcond
    have hmod : (p.CI / 8) % 8 = 0 := by
      by_contra hne
      exact hcond ⟨hne, by simp [ciPadOf, hne]⟩
    have hpad0 : ciPadOf (p.CI / 8) = 0 := by simp [ciPadOf, hmod]
    have hlt : ci < p.CI / 8 := by
      unfold paddedCIp at hci
      omega
    rw [if_pos hlt]

set_option maxHeartbeats 1000000 in
/-- On the reduction domain and for the padding cases the source covers, the
padded data byte coincides with the channel-guarded packing of the zero-padded
activation values. -/
lemma dataPad_eq_packed (p : Params) (A : ℕ → ℕ → ℕ → ℕ → ℕ) (n y x b cp : ℕ)
    (hcp : cp < paddedCIp (p.CI / 8))
    (hcase : (p.TPAD ≠ 0 ∧ p.RPAD ≠ 0) ∨
      (p.TPAD = 0 ∧ p.LPAD = 0 ∧ p.DPAD = 0 ∧ p.RPAD = 0 ∧ y < p.H ∧ x < p.W)) :
    dataPad p A n y x b cp =
      if cp < p.CI / 8 then packByte (fun c => aPad p A n y x c) b cp else 0 := by
  rcases hcase with ⟨ht, hr⟩ | ⟨ht, hl, hd, hrr, hy, hx⟩
  · have hstrat : padStrategy p.TPAD p.LPAD p.DPAD p.RPAD (ciPadOf (p.CI / 8)) =
        PadStrategy.spatialAndChannel := by
      unfold padStrategy
      rw [if_pos ⟨ht, hr⟩]
    unfold dataPad
    rw [hstrat]
    unfold pad5
    split_ifs with hA hB hB
    · unfold dataQ
      refine packByte_congr _ _ b cp fun c => ?_
      unfold aPad
      rw [if_pos ⟨hA.1, hA.2.1, hA.2.2.1, hA.2.2.2.1⟩]
    · exact absurd hA.2.2.2.2 hB
    · refine (packByte_zero _ b cp fun c => ?_).symm
      unfold aPad
      rw [if_neg ?_]
      intro hcon
      exact hA ⟨hcon.1, hcon.2.1, hcon.2.2.1, hcon.2.2.2, hB⟩
    · rfl
  · have hnot : ¬ (p.TPAD ≠ 0 ∧ p.RPAD ≠ 0) := by tauto
    have haP : ∀ c, aPad p A n y x c = A n y x c := by
      intro c
      unfold aPad
      rw [if_pos (by omega), ht, hl]
      simp
    have hpack : packByte (fun c => aPad p A n y x c) b cp = dataQ A n y x b cp := by
      unfold dataQ
      exact packByte_congr _ _ b cp haP
    by_cases hcip : ciPadOf (p.CI / 8) ≠ 0
    · have hstrat : padStrategy p.TPAD p.LPAD p.DPAD p.RPAD (ciPadOf (p.CI / 8)) =
          PadStrategy.channelOnly := by
        unfold padStrategy
        rw [if_neg hnot, if_pos hcip]
      unfold dataPad
      rw [hstrat, hpack]
    · have hstrat : padStrategy p.TPAD p.LPAD p.DPAD p.RPAD (ciPadOf (p.CI / 8)) =
          PadStrategy.noPad := by
        unfold padStrategy
        rw [if_neg hnot, if_neg hcip]
      unfold dataPad
      rw [hstrat, hpack]
      have hlt : cp < p.CI / 8 := by
        unfold paddedCIp at hcp
        omega
      rw [if_pos hlt]

/-! ## Normalizing the accumulation terms -/

lemma bipolarTerm_mod (k a s : ℕ) (hk : k < 65536) (ha : a < 65536) (hs : s < 65536) :
    bipolarTerm k a s % 65536 = (popc16 (k &&& a) * 2 ^ s) % 65536 := by
  unfold bipolarTerm u16
  rw [Nat.mod_eq_of_lt hk, Nat.mod_eq_of_lt ha, Nat.mod_eq_of_lt hs,
    Nat.mod_mod_of_dvd _ (dvd_refl 65536)]

lemma unipolarTerm_mod (k a s : ℕ) (hk : k < 65536) (ha : a < 65536) :
    unipolarTerm k a s % 65536 =
      (((popc16 (k &&& a) : ℤ) - (popc16 (i16not k &&& a) : ℤ)) * 2 ^ s) % 65536 := by
  unfold unipolarTerm u16
  rw [Nat.mod_eq_of_lt hk, Nat.mod_eq_of_lt ha, wrap16_emod, Int.mul_emod, wrap16_emod,
    ← Int.mul_emod]

/-! ## The exact accumulations -/

/-- The `uint16` accumulator computes the exact term sum reduced mod `2^16`. -/
lemma convFlatBip_exact (p : Params) (A Wt : ℕ → ℕ → ℕ → ℕ → ℕ) (n h w co : ℕ)
    (hAB : p.AB ≤ 8) (hWB : p.WB ≤ 8) :
    convFlatBip p A Wt n h w co =
      (∑ dh ∈ Finset.range p.KH, ∑ dw ∈ Finset.range p.KW,
        ∑ kb ∈ Finset.range p.WB, ∑ ib ∈ Finset.range p.AB,
          ∑ ci ∈ Finset.range (paddedCIp (p.CI / 8)),
            popc16 (kernelVecAt p Wt co dh dw kb ci &&&
              dataPad p A n (h * p.HSTR + dh) (w * p.WSTR + dw) ib ci)
              * 2 ^ (kb + ib)) % 65536 := by
  unfold convFlatBip
  refine sum_mod_congr _ _ _ 65536 fun dh _ => ?_
  refine sum_mod_congr _ _ _ 65536 fun dw _ => ?_
  refine sum_mod_congr _ _ _ 65536 fun kb hkb => ?_
  refine sum_mod_congr _ _ _ 65536 fun ib hib => ?_
  refine sum_mod_congr _ _ _ 65536 fun ci _ => ?_
  refine bipolarTerm_mod _ _ _ ?_ ?_ ?_
  · exact lt_trans (kernelVecAt_lt p Wt co dh dw kb ci) (by norm_num)
  · exact lt_trans (dataPad_lt p A n _ _ ib ci) (by norm_num)
  · have h1 : kb < p.WB := Finset.mem_range.mp hkb
    have h2 : ib < p.AB := Finset.mem_range.mp hib
    omega

/-- The exact bipolar term sum equals the reference integer convolution. -/
lemma convFlat_sum_eq_refBip (p : Params) (A Wt : ℕ → ℕ → ℕ → ℕ → ℕ) (n h w co : ℕ)
    (hA : ∀ n' h' w' c, A n' h' w' c < 2 ^ p.AB)
    (hW : ∀ dh dw c co', Wt dh dw c co' < 2 ^ p.WB)
    (hCI : 8 ∣ p.CI)
    (hpad : (p.TPAD ≠ 0 ∧ p.RPAD ≠ 0) ∨
      (p.TPAD = 0 ∧ p.LPAD = 0 ∧ p.DPAD = 0 ∧ p.RPAD = 0))
    (hKH : p.KH ≤ padH p) (hKW : p.KW ≤ padW p)
    (hh : h < outH p) (hw : w < outW p) :
    (∑ dh ∈ Finset.range p.KH, ∑ dw ∈ Finset.range p.KW,
      ∑ kb ∈ Finset.range p.WB, ∑ ib ∈ Finset.range p.AB,
        ∑ ci ∈ Finset.range (paddedCIp (p.CI / 8)),
          popc16 (kernelVecAt p Wt co dh dw kb ci &&&
            dataPad p A n (h * p.HSTR + dh) (w * p.WSTR + dw) ib ci)
            * 2 ^ (kb + ib))
    = refBip p A Wt n h w co := by
  unfold refBip
  refine Finset.sum_congr rfl fun dh hdh => Finset.sum_congr rfl fun dw hdw => ?_
  have hdh' : dh < p.KH := Finset.mem_range.mp hdh
  have hdw' : dw < p.KW := Finset.mem_range.mp hdw
  have hcase : (p.TPAD ≠ 0 ∧ p.RPAD ≠ 0) ∨
      (p.TPAD = 0 ∧ p.LPAD = 0 ∧ p.DPAD = 0 ∧ p.RPAD = 0 ∧
        h * p.HSTR + dh < p.H ∧ w * p.WSTR + dw < p.W) := by
    rcases hpad with h1 | h0
    · exact Or.inl h1
    · obtain ⟨ht, hl, hd, hr⟩ := h0
      refine Or.inr ⟨ht, hl, hd, hr, ?_, ?_⟩
      · have hK : p.KH ≤ p.H := by unfold padH at hKH; omega
        have hmul : h * p.HSTR ≤ p.H - p.KH := by
          by_cases hs : p.HSTR = 0
          · simp [hs]
          · unfold outH padH at hh
            have h1 : h ≤ (p.H + (p.TPAD + p.DPAD) - p.KH) / p.HSTR := by omega
            have h2 : h * p.HSTR ≤ ((p.H + (p.TPAD + p.DPAD) - p.KH) / p.HSTR) * p.HSTR :=
              Nat.mul_le_mul_right _ h1
            have h3 : ((p.H + (p.TPAD + p.DPAD) - p.KH) / p.HSTR) * p.HSTR
                ≤ p.H + (p.TPAD + p.DPAD) - p.KH := Nat.div_mul_le_self _ _
            omega
        omega
      · have hK : p.KW ≤ p.W := by unfold padW at hKW; omega
        have hmul : w * p.WSTR ≤ p.W - p.KW := by
          by_cases hs : p.WSTR = 0
          · simp [hs]
          · unfold outW padW at hw
            have h1 : w ≤ (p.W + (p.LPAD + p.RPAD) - p.KW) / p.WSTR := by omega
            have h2 : w * p.WSTR ≤ ((p.W + (p.LPAD + p.RPAD) - p.KW) / p.WSTR) * p.WSTR :=
              Nat.mul_le_mul_right _ h1
            have h3 : ((p.W + (p.LPAD + p.RPAD) - p.KW) / p.WSTR) * p.WSTR
                ≤ p.W + (p.LPAD + p.RPAD) - p.KW := Nat.div_mul_le_self _ _
            omega
        omega
  calc ∑ kb ∈ Finset.range p.WB, ∑ ib ∈ Finset.range p.AB,
        ∑ ci ∈ Finset.range (paddedCIp (p.CI / 8)),
          popc16 (kernelVecAt p Wt co dh dw kb ci &&&
            dataPad p A n (h * p.HSTR + dh) (w * p.WSTR + dw) ib ci)
            * 2 ^ (kb + ib)
      = ∑ kb ∈ Finset.range p.WB, ∑ ib ∈ Finset.range p.AB,
        ∑ ci ∈ Finset.range (paddedCIp (p.CI / 8)),
          popc16 ((if ci < p.CI / 8 then packByte (fun c => Wt dh dw c co) kb ci else 0) &&&
            (if ci < p.CI / 8 then
              packByte (fun c => aPad p A n (h * p.HSTR + dh) (w * p.WSTR + dw) c) ib ci
              else 0)) * 2 ^ (kb + ib) := by
        refine Finset.sum_congr rfl fun kb _ => Finset.sum_congr rfl fun ib _ => ?_
        refine Finset.sum_congr rfl fun ci hci => ?_
        rw [kernelVecAt_eq p Wt co dh dw kb ci (Finset.mem_range.mp hci),
          dataPad_eq_packed p A n _ _ ib ci (Finset.mem_range.mp hci) hcase]
    _ = ∑ c ∈ Finset.range (8 * (p.CI / 8)),
          Wt dh dw c co * aPad p A n (h * p.HSTR + dh) (w * p.WSTR + dw) c := by
        refine conv_sum_bip (fun c => Wt dh dw c co)
          (fun c => aPad p A n (h * p.HSTR + dh) (w * p.WSTR + dw) c)
          p.WB p.AB (p.CI / 8) (paddedCIp (p.CI / 8)) (Nat.le_add_right _ _)
          (fun c => hW dh dw c co) (fun c => ?_)
        unfold aPad
        split
        · exact hA _ _ _ _
        · exact pow_pos (by norm_num) _
    _ = ∑ c ∈ Finset.range p.CI,
          aPad p A n (h * p.HSTR + dh) (w * p.WSTR + dw) c * Wt dh dw c co := by
        rw [Nat.mul_div_cancel' hCI]
        exact Finset.sum_congr rfl fun c _ => Nat.mul_comm _ _

/-- C1: in bipolar mode, for in-range output coordinates of any valid instance
whose reference value fits `int16`, the compute entry point's output equals the
standard integer dot-product convolution of the unpacked values, for every
tile-size configuration choice. -/
theorem bipolar_output_eq_reference (p : Params) (A Wt : ℕ → ℕ → ℕ → ℕ → ℕ)
    (VH VW VC n h w co : ℕ)
    (hA : ∀ n' h' w' c, A n' h' w' c < 2 ^ p.AB)
    (hW : ∀ dh dw c co', Wt dh dw c co' < 2 ^ p.WB)
    (hCI : 8 ∣ p.CI) (hAB : p.AB ≤ 8) (hWB : p.WB ≤ 8)
    (hpad : (p.TPAD ≠ 0 ∧ p.RPAD ≠ 0) ∨
      (p.TPAD = 0 ∧ p.LPAD = 0 ∧ p.DPAD = 0 ∧ p.RPAD = 0))
    (hKH : p.KH ≤ padH p) (hKW : p.KW ≤ padW p)
    (hh : h < outH p) (hw : w < outW p)
    (hsmall : refBip p A Wt n h w co < 32768) :
    convBip p VH VW VC A Wt n h w co = (refBip p A Wt n h w co : ℤ) := by
  rw [convBip_eq_flat, convFlatBip_exact p A Wt n h w co hAB hWB,
    convFlat_sum_eq_refBip p A Wt n h w co hA hW hCI hpad hKH hKW hh hw,
    Nat.mod_eq_of_lt (by omega)]
  exact toI16_eq_self _ hsmall

/-- The `int16` accumulator computes the exact signed term sum wrapped into
`[-2^15, 2^15)`. -/
lemma convFlatUni_exact (p : Params) (A Wt : ℕ → ℕ → ℕ → ℕ → ℕ) (n h w co : ℕ) :
    convFlatUni p A Wt n h w co =
      wrap16 (∑ dh ∈ Finset.range p.KH, ∑ dw ∈ Finset.range p.KW,
        ∑ kb ∈ Finset.range p.WB, ∑ ib ∈ Finset.range p.AB,
          ∑ ci ∈ Finset.range (paddedCIp (p.CI / 8)),
            ((popc16 (kernelVecAt p Wt co dh dw kb ci &&&
                dataPad p A n (h * p.HSTR + dh) (w * p.WSTR + dw) ib ci) : ℤ)
              - (popc16 (i16not (kernelVecAt p Wt co dh dw kb ci) &&&
                dataPad p A n (h * p.HSTR + dh) (w * p.WSTR + dw) ib ci) : ℤ))
              * 2 ^ (kb + ib)) := by
  unfold convFlatUni
  refine wrap16_congr _ _ ?_
  refine sum_int_mod_congr _ _ _ 65536 fun dh _ => ?_
  refine sum_int_mod_congr _ _ _ 65536 fun dw _ => ?_
  refine sum_int_mod_congr _ _ _ 65536 fun kb _ => ?_
  refine sum_int_mod_congr _ _ _ 65536 fun ib _ => ?_
  refine sum_int_mod_congr _ _ _ 65536 fun ci _ => ?_
  refine unipolarTerm_mod _ _ _ ?_ ?_
  · exact lt_trans (kernelVecAt_lt p Wt co dh dw kb ci) (by norm_num)
  · exact lt_trans (dataPad_lt p A n _ _ ib ci) (by norm_num)

/-- The exact unipolar term sum equals the signed reference convolution. -/
lemma convFlat_sum_eq_refUni (p : Params) (A Wt : ℕ → ℕ → ℕ → ℕ → ℕ) (n h w co : ℕ)
    (hA : ∀ n' h' w' c, A n' h' w' c < 2 ^ p.AB)
    (hCI : 8 ∣ p.CI)
    (hpad : (p.TPAD ≠ 0 ∧ p.RPAD ≠ 0) ∨
      (p.TPAD = 0 ∧ p.LPAD = 0 ∧ p.DPAD = 0 ∧ p.RPAD = 0))
    (hKH : p.KH ≤ padH p) (hKW : p.KW ≤ padW p)
    (hh : h < outH p) (hw : w < outW p) :
    (∑ dh ∈ Finset.range p.KH, ∑ dw ∈ Finset.range p.KW,
      ∑ kb ∈ Finset.range p.WB, ∑ ib ∈ Finset.range p.AB,
        ∑ ci ∈ Finset.range (paddedCIp (p.CI / 8)),
          ((popc16 (kernelVecAt p Wt co dh dw kb ci &&&
              dataPad p A n (h * p.HSTR + dh) (w * p.WSTR + dw) ib ci) : ℤ)
            - (popc16 (i16not (kernelVecAt p Wt co dh dw kb ci) &&&
              dataPad p A n (h * p.HSTR + dh) (w * p.WSTR + dw) ib ci) : ℤ))
            * 2 ^ (kb + ib))
    = refUni p A Wt n h w co := by
  unfold refUni
  refine Finset.sum_congr rfl fun dh hdh => Finset.sum_congr rfl fun dw hdw => ?_
  have hdh' : dh < p.KH := Finset.mem_range.mp hdh
  have hdw' : dw < p.KW := Finset.mem_range.mp hdw
  have hcase : (p.TPAD ≠ 0 ∧ p.RPAD ≠ 0) ∨
      (p.TPAD = 0 ∧ p.LPAD = 0 ∧ p.DPAD = 0 ∧ p.RPAD = 0 ∧
        h * p.HSTR + dh < p.H ∧ w * p.WSTR + dw < p.W) := by
    rcases hpad with h1 | h0
    · exact Or.inl h1
    · obtain ⟨ht, hl, hd, hr⟩ := h0
      refine Or.inr ⟨ht, hl, hd, hr, ?_, ?_⟩
      · have hK : p.KH ≤ p.H := by unfold padH at hKH; omega
        have hmul : h * p.HSTR ≤ p.H - p.KH := by
          by_cases hs : p.HSTR = 0
          · simp [hs]
          · unfold outH padH at hh
            have h1 : h ≤ (p.H + (p.TPAD + p.DPAD) - p.KH) / p.HSTR := by omega
            have h2 : h * p.HSTR ≤ ((p.H + (p.TPAD + p.DPAD) - p.KH) / p.HSTR) * p.HSTR :=
              Nat.mul_le_mul_right _ h1
            have h3 : ((p.H + (p.TPAD + p.DPAD) - p.KH) / p.HSTR) * p.HSTR
                ≤ p.H + (p.TPAD + p.DPAD) - p.KH := Nat.div_mul_le_self _ _
            omega
        omega
      · have hK : p.KW ≤ p.W := by unfold padW at hKW; omega
        have hmul : w * p.WSTR ≤ p.W - p.KW := by
          by_cases hs : p.WSTR = 0
          · simp [hs]
          · unfold outW padW at hw
            have h1 : w ≤ (p.W + (p.LPAD + p.RPAD) - p.KW) / p.WSTR := by omega
            have h2 : w * p.WSTR ≤ ((p.W + (p.LPAD + p.RPAD) - p.KW) / p.WSTR) * p.WSTR :=
              Nat.mul_le_mul_right _ h1
            have h3 : ((p.W + (p.LPAD + p.RPAD) - p.KW) / p.WSTR) * p.WSTR
                ≤ p.W + (p.LPAD + p.RPAD) - p.KW := Nat.div_mul_le_self _ _
            omega
        omega
  calc ∑ kb ∈ Finset.range p.WB, ∑ ib ∈ Finset.range p.AB,
        ∑ ci ∈ Finset.range (paddedCIp (p.CI / 8)),
          ((popc16 (kernelVecAt p Wt co dh dw kb ci &&&
              dataPad p A n (h * p.HSTR + dh) (w * p.WSTR + dw) ib ci) : ℤ)
            - (popc16 (i16not (kernelVecAt p Wt co dh dw kb ci) &&&
              dataPad p A n (h * p.HSTR + dh) (w * p.WSTR + dw) ib ci) : ℤ))
            * 2 ^ (kb + ib)
      = ∑ kb ∈ Finset.range p.WB, ∑ ib ∈ Finset.range p.AB,
        ∑ ci ∈ Finset.range (paddedCIp (p.CI / 8)),
          ((popc16 ((if ci < p.CI / 8 then packByte (fun c => Wt dh dw c co) kb ci else 0) &&&
            (if ci < p.CI / 8 then
              packByte (fun c => aPad p A n (h * p.HSTR + dh) (w * p.WSTR + dw) c) ib ci
              else 0)) : ℤ)
            - (popc16 (i16not
                (if ci < p.CI / 8 then packByte (fun c => Wt dh dw c co) kb ci else 0) &&&
              (if ci < p.CI / 8 then
                packByte (fun c => aPad p A n (h * p.HSTR + dh) (w * p.WSTR + dw) c) ib ci
                else 0)) : ℤ)) * 2 ^ (kb + ib) := by
        refine Finset.sum_congr rfl fun kb _ => Finset.sum_congr rfl fun ib _ => ?_
        refine Finset.sum_congr rfl fun ci hci => ?_
        rw [kernelVecAt_eq p Wt co dh dw kb ci (Finset.mem_range.mp hci),
          dataPad_eq_packed p A n _ _ ib ci (Finset.mem_range.mp hci) hcase]
    _ = ∑ c ∈ Finset.range (8 * (p.CI / 8)),
          uniW p.WB (Wt dh dw c co)
            * (aPad p A n (h * p.HSTR + dh) (w * p.WSTR + dw) c : ℤ) := by
        refine conv_sum_uni (fun c => Wt dh dw c co)
          (fun c => aPad p A n (h * p.HSTR + dh) (w * p.WSTR + dw) c)
          p.WB p.AB (p.CI / 8) (paddedCIp (p.CI / 8)) (Nat.le_add_right _ _)
          (fun c => ?_)
        unfold aPad
        split
        · exact hA _ _ _ _
        · exact pow_pos (by norm_num) _
    _ = ∑ c ∈ Finset.range p.CI,
          (aPad p A n (h * p.HSTR + dh) (w * p.WSTR + dw) c : ℤ)
            * uniW p.WB (Wt dh dw c co) := by
        rw [Nat.mul_div_cancel' hCI]
        exact Finset.sum_congr rfl fun c _ => mul_comm _ _

/-- C2: in unipolar mode, for in-range output coordinates of any valid instance
whose signed reference value fits `int16`, the compute entry point's output
equals the signed reference dot-product convolution in which weight bit `1`
maps to `+1` and weight bit `0` maps to `-1`, for every tile-size
configuration choice. -/
theorem unipolar_output_eq_reference (p : Params) (A Wt : ℕ → ℕ → ℕ → ℕ → ℕ)
    (VH VW VC n h w co : ℕ)
    (hA : ∀ n' h' w' c, A n' h' w' c < 2 ^ p.AB)
    (hCI : 8 ∣ p.CI)
    (hpad : (p.TPAD ≠ 0 ∧ p.RPAD ≠ 0) ∨
      (p.TPAD = 0 ∧ p.LPAD = 0 ∧ p.DPAD = 0 ∧ p.RPAD = 0))
    (hKH : p.KH ≤ padH p) (hKW : p.KW ≤ padW p)
    (hh : h < outH p) (hw : w < outW p)
    (hlo : -32768 ≤ refUni p A Wt n h w co) (hhi : refUni p A Wt n h w co < 32768) :
    convUni p VH VW VC A Wt n h w co = refUni p A Wt n h w co := by
  rw [convUni_eq_flat, convFlatUni_exact p A Wt n h w co,
    convFlat_sum_eq_refUni p A Wt n h w co hA hCI hpad hKH hKW hh hw]
  exact wrap16_eq_self _ hlo hhi

/-- Witness for C1: a concrete `1×1` image with 8 input channels, `1×1` kernel,
unit strides, no padding, 1-bit activations and weights, tile sizes
`VH = VW = 2`, `VC = 8`. -/
theorem bipolar_output_eq_reference_witness :
    convBip ⟨1, 1, 8, 1, 1, 1, 1, 1, 0, 0, 0, 0, 1, 1⟩ 2 2 8 (fun _ _ _ _ => 1)
      (fun _ _ _ _ => 1) 0 0 0 0
      = (refBip ⟨1, 1, 8, 1, 1, 1, 1, 1, 0, 0, 0, 0, 1, 1⟩ (fun _ _ _ _ => 1)
        (fun _ _ _ _ => 1) 0 0 0 0 : ℤ) :=
  bipolar_output_eq_reference ⟨1, 1, 8, 1, 1, 1, 1, 1, 0, 0, 0, 0, 1, 1⟩
    (fun _ _ _ _ => 1) (fun _ _ _ _ => 1) 2 2 8 0 0 0 0
    (by intro a b c d; show (1 : ℕ) < 2 ^ 1; decide)
    (by intro a b c d; show (1 : ℕ) < 2 ^ 1; decide) (by decide) (by decide)
    (by decide) (Or.inr (by decide)) (by decide) (by decide) (by decide) (by decide)
    (by decide)

/-- Witness for C2: the same concrete instance in unipolar mode. -/
theorem unipolar_output_eq_reference_witness :
    convUni ⟨1, 1, 8, 1, 1, 1, 1, 1, 0, 0, 0, 0, 1, 1⟩ 2 2 8 (fun _ _ _ _ => 1)
      (fun _ _ _ _ => 1) 0 0 0 0
      = refUni ⟨1, 1, 8, 1, 1, 1, 1, 1, 0, 0, 0, 0, 1, 1⟩ (fun _ _ _ _ => 1)
        (fun _ _ _ _ => 1) 0 0 0 0 :=
  unipolar_output_eq_reference ⟨1, 1, 8, 1, 1, 1, 1, 1, 0, 0, 0, 0, 1, 1⟩
    (fun _ _ _ _ => 1) (fun _ _ _ _ => 1) 2 2 8 0 0 0 0
    (by intro a b c d; show (1 : ℕ) < 2 ^ 1; decide) (by decide) (Or.inr (by decide))
    (by decide) (by decide) (by decide) (by decide) (by decide) (by decide)

/-- C7: for a fixed activation, weight, stride, and padding instance, the
compute graph's output function is identical for every tile-size choice, in
both polarities: the tiled indexing recombines to the same flat computation. -/
theorem config_invariance (p : Params) (A Wt : ℕ → ℕ → ℕ → ℕ → ℕ)
    (VH VW VC VH' VW' VC' n h w co : ℕ) :
    convBip p VH VW VC A Wt n h w co = convBip p VH' VW' VC' A Wt n h w co ∧
    convUni p VH VW VC A Wt n h w co = convUni p VH' VW' VC' A Wt n h w co := by
  constructor
  · rw [convBip_eq_flat, convBip_eq_flat]
  · rw [convUni_eq_flat, convUni_eq_flat]

/-- C5: the entry point returns a tensor of shape
`(1, (H + pad_h - KH)/stride_h + 1, (W + pad_w - KW)/stride_w + 1, CO)` where
`pad_h = TPAD + DPAD` and `pad_w = LPAD + RPAD`. -/
theorem output_shape_law (p : Params) (A Wt : ℕ → ℕ → ℕ → ℕ → ℕ) (uni : Bool)
    (VH VW VC : ℕ) :
    ∃ g : ConvGraph,
      bitserialConv2dNHWC 1 "uint8" "int16" p A Wt uni VH VW VC = Except.ok g ∧
      g.shape = (1, (p.H + (p.TPAD + p.DPAD) - p.KH) / p.HSTR + 1,
        (p.W + (p.LPAD + p.RPAD) - p.KW) / p.WSTR + 1, p.CO) := by
  refine ⟨⟨oshape p, if uni then convUni p VH VW VC A Wt else convBip p VH VW VC A Wt⟩,
    ?_, rfl⟩
  unfold bitserialConv2dNHWC
  rw [if_neg (by decide), if_neg (by decide), if_neg (by decide)]

/-- C10: the entry point fails (with no graph constructed) exactly when batch
size is not 1, the packing unit type is not `uint8`, or the output type is not
`int16`; when all three preconditions hold, no check fails and a graph is
returned. -/
theorem contract_checks (batch : ℕ) (packDtype outDtype : String) (p : Params)
    (A Wt : ℕ → ℕ → ℕ → ℕ → ℕ) (uni : Bool) (VH VW VC : ℕ) :
    ((∃ e, bitserialConv2dNHWC batch packDtype outDtype p A Wt uni VH VW VC =
        Except.error e) ↔
      ¬(batch = 1 ∧ packDtype = "uint8" ∧ outDtype = "int16")) ∧
    ((∃ g, bitserialConv2dNHWC batch packDtype outDtype p A Wt uni VH VW VC =
        Except.ok g) ↔
      (batch = 1 ∧ packDtype = "uint8" ∧ outDtype = "int16")) := by
  unfold bitserialConv2dNHWC
  split_ifs with h1 h2 h3 <;> simp_all

/-! ## Configuration-space facts -/

lemma mem_splitCandidates (extent : ℕ) (keep : ℕ → Bool) (oi : ℕ × ℕ)
    (h : 0 < extent) :
    oi ∈ splitCandidates extent keep ↔ oi.1 * oi.2 = extent ∧ keep oi.2 = true := by
  unfold splitCandidates
  rw [Finset.mem_filter, Finset.mem_product, Finset.mem_range, Finset.mem_range]
  constructor
  · rintro ⟨_, h2⟩
    exact h2
  · rintro ⟨h1, h2⟩
    have ha : 0 < oi.1 := by
      rcases Nat.eq_zero_or_pos oi.1 with h0 | h0
      · rw [h0, zero_mul] at h1
        omega
      · exact h0
    have hb : 0 < oi.2 := by
      rcases Nat.eq_zero_or_pos oi.2 with h0 | h0
      · rw [h0, mul_zero] at h1
        omega
      · exact h0
    have h1a : oi.1 ≤ extent := by
      calc oi.1 = oi.1 * 1 := (mul_one _).symm
        _ ≤ oi.1 * oi.2 := Nat.mul_le_mul_left _ hb
        _ = extent := h1
    have h1b : oi.2 ≤ extent := by
      calc oi.2 = 1 * oi.2 := (one_mul _).symm
        _ ≤ oi.1 * oi.2 := Nat.mul_le_mul_right _ ha
        _ = extent := h1
    exact ⟨⟨by omega, by omega⟩, h1, h2⟩

/-- C8: the declared split candidates are exactly the factorizations whose
inner width is 8 (output channel), at least 2 (output height and width), and
8 or 16 (reduction channel); nothing else passes the filters. -/
theorem split_factor_filters (co oh ow ci : ℕ)
    (hco : 0 < co) (hoh : 0 < oh) (how : 0 < ow) (hci : 0 < ci) :
    (∀ oi : ℕ × ℕ, oi ∈ tileCo co ↔ oi.1 * oi.2 = co ∧ oi.2 = 8) ∧
    (∀ oi : ℕ × ℕ, oi ∈ tileOh oh ↔ oi.1 * oi.2 = oh ∧ 2 ≤ oi.2) ∧
    (∀ oi : ℕ × ℕ, oi ∈ tileOw ow ↔ oi.1 * oi.2 = ow ∧ 2 ≤ oi.2) ∧
    (∀ oi : ℕ × ℕ, oi ∈ tileCi ci ↔ oi.1 * oi.2 = ci ∧ (oi.2 = 8 ∨ oi.2 = 16)) := by
  refine ⟨fun oi => ?_, fun oi => ?_, fun oi => ?_, fun oi => ?_⟩
  · rw [tileCo, mem_splitCandidates _ _ _ hco]
    simp
  · rw [tileOh, mem_splitCandidates _ _ _ hoh]
    simp
  · rw [tileOw, mem_splitCandidates _ _ _ how]
    simp
  · rw [tileCi, mem_splitCandidates _ _ _ hci]
    simp

/-- Witness for C8 at concrete extents 24, 6, 6, 16. -/
theorem split_factor_filters_witness :
    ((3, 8) ∈ tileCo 24 ↔ 3 * 8 = 24 ∧ (8 : ℕ) = 8) ∧
    ((2, 8) ∈ tileCi 16 ↔ 2 * 8 = 16 ∧ ((8 : ℕ) = 8 ∨ (8 : ℕ) = 16)) :=
  ⟨(split_factor_filters 24 6 6 16 (by decide) (by decide) (by decide) (by decide)).1 (3, 8),
   (split_factor_filters 24 6 6 16 (by decide) (by decide) (by decide)
     (by decide)).2.2.2 (2, 8)⟩

/-- C9 counterexample: the two reorder candidates are permutations of thirteen
loop variables, not twelve. -/
theorem reorder_candidates_not_twelve :
    reorderCandidates.length = 2 ∧
    (reorderCandidates.getD 0 []).length = 13 ∧
    ¬ (reorderCandidates.getD 0 []).length = 12 := by decide

/-- C9 amended: the loop-order knob holds exactly two candidate permutations of
the thirteen logical loop variables, identical except that kernel-height and
kernel-width (positions 6 and 7) are swapped. -/
theorem reorder_candidates_swap :
    reorderCandidates.length = 2 ∧
    (reorderCandidates.getD 0 []).length = 13 ∧
    (reorderCandidates.getD 1 []).length = 13 ∧
    (reorderCandidates.getD 0 []).Nodup ∧
    (reorderCandidates.getD 1 []).Nodup ∧
    (reorderCandidates.getD 0 []).take 6 = (reorderCandidates.getD 1 []).take 6 ∧
    (reorderCandidates.getD 0 []).drop 8 = (reorderCandidates.getD 1 []).drop 8 ∧
    (reorderCandidates.getD 0 []).getD 6 Axis.n = Axis.kh ∧
    (reorderCandidates.getD 0 []).getD 7 Axis.n = Axis.kw ∧
    (reorderCandidates.getD 1 []).getD 6 Axis.n = Axis.kw ∧
    (reorderCandidates.getD 1 []).getD 7 Axis.n = Axis.kh := by decide

/-- C4 counterexample: a call with top-only padding (`TPAD = 1`, the others 0,
no channel deficit) builds no spatial padding node at all — the claim's
"a spatial padding node covering that side is still built" fails. -/
theorem padStrategy_top_only_no_node :
    padStrategy 1 0 0 0 0 = PadStrategy.noPad ∧
    padStrategy 1 0 0 0 0 ≠ PadStrategy.spatialAndChannel := by decide

/-- C4 amended: the padding step picks exactly one of the three strategies:
combined spatial-and-channel padding iff `TPAD ≠ 0` and `RPAD ≠ 0`, otherwise
channel-only padding iff the channel deficit is nonzero, otherwise no padding
node — while the output extents always use the fully padded sizes. -/
theorem padStrategy_characterization (t l d r c : ℕ) (q : Params) :
    (padStrategy t l d r c = PadStrategy.spatialAndChannel ↔ (t ≠ 0 ∧ r ≠ 0)) ∧
    (padStrategy t l d r c = PadStrategy.channelOnly ↔ (¬(t ≠ 0 ∧ r ≠ 0) ∧ c ≠ 0)) ∧
    (padStrategy t l d r c = PadStrategy.noPad ↔ (¬(t ≠ 0 ∧ r ≠ 0) ∧ c = 0)) ∧
    outH q = (q.H + (q.TPAD + q.DPAD) - q.KH) / q.HSTR + 1 ∧
    outW q = (q.W + (q.LPAD + q.RPAD) - q.KW) / q.WSTR + 1 := by
  unfold padStrategy outH outW padH padW
  split_ifs with h1 h2 <;> simp_all

/-- C3: evaluating the channel-padding step at packed channel count 1 (an
input-channel count of 8): the code pads by `CI_packed % 8 = 1`, giving 2
packed channels — not a multiple of 8 as the claim requires. -/
theorem channel_pad_not_multiple_of_eight :
    ciPadOf 1 = 1 ∧ paddedCIp 1 = 2 ∧ ¬ 8 ∣ paddedCIp 1 := by decide

/-- C6: with byte-sized operands (as produced by the packed tensors) and the
shift amounts arising from small bit widths, both accumulation terms are
computed on operands widened to the 16-bit type and equal the exact integer
value with no wrap-around and no rounding. -/
theorem widened_terms_exact (k a s : ℕ) (hk : k < 256) (ha : a < 256) (hs : s ≤ 11) :
    bipolarTerm k a s = popc16 (k &&& a) * 2 ^ s ∧
    unipolarTerm k a s =
      ((popc16 (k &&& a) : ℤ) - (popc16 (i16not k &&& a) : ℤ)) * 2 ^ s := by
  have hka : k &&& a < 256 := lt_of_le_of_lt Nat.and_le_left hk
  have hna : i16not k &&& a < 256 := lt_of_le_of_lt Nat.and_le_right ha
  have hp1 : popc16 (k &&& a) ≤ 8 := popc16_le_eight _ hka
  have hp2 : popc16 (i16not k &&& a) ≤ 8 := popc16_le_eight _ hna
  have h2s : (2 : ℕ) ^ s ≤ 2 ^ 11 := Nat.pow_le_pow_right (by norm_num) hs
  constructor
  · unfold bipolarTerm u16
    rw [Nat.mod_eq_of_lt (by omega : k < 65536), Nat.mod_eq_of_lt (by omega : a < 65536),
      Nat.mod_eq_of_lt (by omega : s < 65536)]
    have hsmall : popc16 (k &&& a) * 2 ^ s ≤ 8 * 2 ^ 11 := Nat.mul_le_mul hp1 h2s
    exact Nat.mod_eq_of_lt (by omega)
  · unfold unipolarTerm u16
    rw [Nat.mod_eq_of_lt (by omega : k < 65536), Nat.mod_eq_of_lt (by omega : a < 65536)]
    have h2sz : (2 : ℤ) ^ s ≤ 2048 := by
      have : (2 : ℤ) ^ s ≤ 2 ^ 11 := by exact_mod_cast h2s
      omega
    have h2sp : (0 : ℤ) < 2 ^ s := by positivity
    have hd1 : ((popc16 (k &&& a) : ℤ) - (popc16 (i16not k &&& a) : ℤ)) ≤ 8 := by
      have := hp1
      omega
    have hd2 : (-8 : ℤ) ≤ ((popc16 (k &&& a) : ℤ) - (popc16 (i16not k &&& a) : ℤ)) := by
      have := hp2
      omega
    have hub : ((popc16 (k &&& a) : ℤ) - (popc16 (i16not k &&& a) : ℤ)) * 2 ^ s
        ≤ 16384 := by nlinarith
    have hlb : (-16384 : ℤ) ≤
        ((popc16 (k &&& a) : ℤ) - (popc16 (i16not k &&& a) : ℤ)) * 2 ^ s := by nlinarith
    rw [wrap16_eq_self ((popc16 (k &&& a) : ℤ) - (popc16 (i16not k &&& a) : ℤ))
      (by omega) (by omega)]
    exact wrap16_eq_self _ (by omega) (by omega)

/-- Witness for C6 at the concrete operands `k = 3`, `a = 5`, `s = 2`. -/
theorem widened_terms_exact_witness :
    bipolarTerm 3 5 2 = popc16 (3 &&& 5) * 2 ^ 2 ∧
    unipolarTerm 3 5 2 =
      ((popc16 (3 &&& 5) : ℤ) - (popc16 (i16not 3 &&& 5) : ℤ)) * 2 ^ 2 :=
  widened_terms_exact 3 5 2 (by decide) (by decide) (by decide)

end BitserialConv
